import Mathlib

/-!
Shallow embedding of the Predictory event lifecycle
(src/smc/programs/predictory/src/context/event.rs) and proofs about it.

Machine integers: the `u64` ledger fields (`stake`, `locked_stake`) are
modelled as `Nat` with explicit wrap-around modulo `2 ^ 64` at every
arithmetic step (`wadd`, `wsub`), mirroring two's-complement wrapping.
Timestamps (`i64`) are modelled as `Int`.  Lamport balances moved by the
fund-transfer primitive are plain `Nat` totals.
-/

namespace Predictory

/-- Modelled from the spec: the required version constant `UUID_VERSION`
lives in `context/mod.rs`, which is not under `src/`; the spec says only
that the identifier's embedded version tag must equal this constant.  The
concrete value is irrelevant to every claim; we fix the customary 4. -/
def UUID_VERSION : Nat := 4

/-- Modelled from the spec: the fixed grace period constant
`COMPLETION_DEADLINE` lives in `context/mod.rs`, which is not under
`src/`.  Claims use it only symbolically; we fix one day in seconds. -/
def COMPLETION_DEADLINE : Int := 86400

/-- The modulus of `u64` arithmetic. -/
def U64_MOD : Nat := 2 ^ 64

/-- Wrapping `u64` addition. -/
def wadd (a b : Nat) : Nat := (a + b) % U64_MOD

/-- Wrapping `u64` subtraction (two's complement). -/
def wsub (a b : Nat) : Nat := (a + (U64_MOD - b % U64_MOD)) % U64_MOD

/-- The version nibble of a `uuid::Uuid` built by `Uuid::from_u128`:
byte 6 of the big-endian representation, high nibble, i.e. bits 76..80
of the 128-bit value (`get_version_num`). -/
def get_version_num (id : Nat) : Nat := (id >>> 76) % 16

/-- Modelled from the spec: `State` (`state/contract_state.rs`, not under
`src/`) is the global configuration singleton holding the admin identity
(`authority`, compared against `contract_admin` in `CancelEvent`) and the
fixed stake price (`event_price`).  Principals are modelled as `Nat`. -/
structure State where
  authority : Nat
  event_price : Nat
deriving Repr, DecidableEq

/-- Modelled from the spec: `User` (`state/user.rs`, not under `src/`) is
the per-principal ledger with spendable `stake` and escrowed
`locked_stake`, both `u64`. -/
structure User where
  stake : Nat
  locked_stake : Nat
deriving Repr, DecidableEq

/-- The `Event` account (`state/event.rs` is not under `src/`, but every
field is fixed by its uses in `context/event.rs`).  The `vault` field is
the lamport balance physically held at the event's own account — the
spec directs modelling it as a distinct vault resource owned by the
event.  `Event::VERSION` is modelled as 1 (value not under `src/`). -/
structure Event where
  id : Nat
  authority : Nat
  stake : Nat
  start_date : Int
  end_date : Int
  participation_deadline : Option Int
  canceled : Bool
  result : Option Nat
  version : Nat
  vault : Nat
deriving Repr, DecidableEq

/-- The `EventMeta` account, fields fixed by `context/event.rs`
(`EventMeta::VERSION` modelled as 1; byte arrays as `List Nat`). -/
structure EventMeta where
  event_id : Nat
  name : List Nat
  description : List Nat
  is_private : Bool
  version : Nat
deriving Repr, DecidableEq

/-- `CreateEventArgs` from `context/event.rs`. -/
structure CreateEventArgs where
  name : List Nat
  is_private : Bool
  description : List Nat
  start_date : Int
  end_date : Int
  participation_deadline : Option Int
deriving Repr, DecidableEq

/-- Error taxonomy.  The first six are `ProgramError` variants raised in
`context/event.rs`; the last three model the account layer and the
fund-transfer primitive (account resolution failure, `init` on an
existing account, and the spec's transfer that fails atomically when the
source balance is insufficient). -/
inductive PErr
  | InvalidUUID
  | InvalidEndDate
  | StakeTooLow
  | AuthorityMismatch
  | EventAlreadyStarted
  | EventIsNotOver
  | AccountNotFound
  | AccountAlreadyInUse
  | InsufficientFunds
deriving Repr, DecidableEq

/-- The world state: global config, the user ledgers (association list
keyed by principal), the event and event-meta accounts, the lamport
balance held at each user's ledger account, and the admin's balance. -/
structure World where
  state : State
  users : List (Nat × User)
  events : List Event
  metas : List (Nat × EventMeta)
  user_lamports : Nat → Nat
  admin_lamports : Nat

/-- Association-list lookup by key (first match, as the account store's
fetch by derived key). -/
def lookA {α : Type} : List (Nat × α) → Nat → Option α
  | [], _ => none
  | p :: t, k => if p.1 = k then some p.2 else lookA t k

/-- Association-list pointwise update at a key. -/
def updA {α : Type} (l : List (Nat × α)) (k : Nat) (v : α) : List (Nat × α) :=
  l.map (fun p => if p.1 = k then (k, v) else p)

/-- Find an event account by id (first match). -/
def findE : List Event → Nat → Option Event
  | [], _ => none
  | e :: t, eid => if e.id = eid then some e else findE t eid

/-- Find an event account by id in the world. -/
def findEvent (w : World) (eid : Nat) : Option Event :=
  findE w.events eid

/-- Replace the event account with the given id. -/
def updE (l : List Event) (eid : Nat) (e' : Event) : List Event :=
  l.map (fun e => if e.id = eid then e' else e)

/-- Overwrite one user's ledger in the world. -/
def setUser (w : World) (k : Nat) (u : User) : World :=
  { w with users := updA w.users k u }

/-- Overwrite one event account in the world. -/
def setEvent (w : World) (eid : Nat) (e' : Event) : World :=
  { w with events := updE w.events eid e' }

/-- `CreateEvent::validate`: uuid version tag, `start_date < end_date`,
and if present the participation deadline lies in
`[start_date, end_date]` inclusive. -/
def validate (event_id : Nat) (args : CreateEventArgs) : Except PErr Unit :=
  if get_version_num event_id ≠ UUID_VERSION then .error .InvalidUUID
  else if ¬ args.start_date < args.end_date then .error .InvalidEndDate
  else
    match args.participation_deadline with
    | some d =>
        if args.start_date ≤ d ∧ d ≤ args.end_date then .ok ()
        else .error .InvalidEndDate
    | none => .ok ()

/-- The successful-path state change of `CreateEvent::create_event`:
the new `Event` and `EventMeta` accounts, the ledger mutation
`stake -= price; locked_stake += price`, and the transfer of `price`
lamports from the user's account into the event's vault. -/
def createApply (w : World) (caller event_id : Nat) (args : CreateEventArgs)
    (user : User) : World :=
  let price := w.state.event_price
  let ev : Event :=
    { id := event_id, authority := caller, stake := price,
      start_date := args.start_date, end_date := args.end_date,
      participation_deadline := args.participation_deadline,
      canceled := false, result := none, version := 1, vault := price }
  let em : EventMeta :=
    { event_id := event_id, name := args.name,
      description := args.description, is_private := args.is_private,
      version := 1 }
  { w with
    users := updA w.users caller
      { stake := wsub user.stake price,
        locked_stake := wadd user.locked_stake price },
    events := w.events ++ [ev],
    metas := w.metas ++ [(event_id, em)],
    user_lamports := fun k =>
      if k = caller then w.user_lamports caller - price
      else w.user_lamports k }

/-- `CreateEvent::create_event`.  Account resolution first (the caller's
user ledger must exist; `init` fails if the event or meta account
already exists), then `validate`, then the `StakeTooLow` require, then
the state change with the vault funding transfer. -/
def create_event (w : World) (caller event_id : Nat)
    (args : CreateEventArgs) : Except PErr World :=
  match lookA w.users caller with
  | none => .error .AccountNotFound
  | some user =>
    if (findEvent w event_id).isSome then .error .AccountAlreadyInUse
    else if (lookA w.metas event_id).isSome then .error .AccountAlreadyInUse
    else
      match validate event_id args with
      | .error e => .error e
      | .ok _ =>
        if user.stake < w.state.event_price then .error .StakeTooLow
        else if w.user_lamports caller < w.state.event_price then
          .error .InsufficientFunds
        else .ok (createApply w caller event_id args user)

/-- The shared account gate of the `UpdateEvent` context: the event must
exist, `event.authority == authority.key()` (else `AuthorityMismatch`),
and `event.start_date > now` (else `EventAlreadyStarted`).  It is part
of the accounts struct, hence checked once at entry for all four
sub-operations. -/
def update_gate (w : World) (caller event_id : Nat) (now : Int) :
    Except PErr Event :=
  match findEvent w event_id with
  | none => .error .AccountNotFound
  | some e =>
    if e.authority ≠ caller then .error .AuthorityMismatch
    else if ¬ e.start_date > now then .error .EventAlreadyStarted
    else .ok e

/-- `UpdateEvent::update_event_name`. -/
def update_event_name (w : World) (caller event_id : Nat)
    (name : List Nat) (now : Int) : Except PErr World :=
  match update_gate w caller event_id now with
  | .error e => .error e
  | .ok _ =>
    match lookA w.metas event_id with
    | none => .error .AccountNotFound
    | some m => .ok { w with metas := updA w.metas event_id { m with name := name } }

/-- `UpdateEvent::update_event_description`. -/
def update_event_description (w : World) (caller event_id : Nat)
    (description : List Nat) (now : Int) : Except PErr World :=
  match update_gate w caller event_id now with
  | .error e => .error e
  | .ok _ =>
    match lookA w.metas event_id with
    | none => .error .AccountNotFound
    | some m =>
      .ok { w with metas := updA w.metas event_id { m with description := description } }

/-- `UpdateEvent::update_event_end_date`: requires
`start_date < end_date` and, when a participation deadline exists,
`deadline <= end_date`. -/
def update_event_end_date (w : World) (caller event_id : Nat)
    (end_date : Int) (now : Int) : Except PErr World :=
  match update_gate w caller event_id now with
  | .error e => .error e
  | .ok e =>
    match lookA w.metas event_id with
    | none => .error .AccountNotFound
    | some _ =>
      if ¬ e.start_date < end_date then .error .InvalidEndDate
      else
        match e.participation_deadline with
        | some d =>
          if ¬ d ≤ end_date then .error .InvalidEndDate
          else .ok (setEvent w event_id { e with end_date := end_date })
        | none => .ok (setEvent w event_id { e with end_date := end_date })

/-- `UpdateEvent::update_event_participation_deadline`: a present new
deadline must lie in `[start_date, end_date]` inclusive (current,
unmodified `end_date`). -/
def update_event_participation_deadline (w : World) (caller event_id : Nat)
    (deadline : Option Int) (now : Int) : Except PErr World :=
  match update_gate w caller event_id now with
  | .error e => .error e
  | .ok e =>
    match lookA w.metas event_id with
    | none => .error .AccountNotFound
    | some _ =>
      match deadline with
      | some d =>
        if e.start_date ≤ d ∧ d ≤ e.end_date then
          .ok (setEvent w event_id { e with participation_deadline := some d })
        else .error .InvalidEndDate
      | none => .ok (setEvent w event_id { e with participation_deadline := none })

/-- The started-branch state change of `CancelEvent::cancel_event`:
`locked_stake -= stake`, vault pays the admin, `canceled := true`. -/
def cancelForfeit (w : World) (eid : Nat) (e : Event) (u : User) : World :=
  let w1 := setUser w e.authority
    { u with locked_stake := wsub u.locked_stake e.stake }
  let w2 := setEvent w1 eid
    { e with vault := e.vault - e.stake, canceled := true }
  { w2 with admin_lamports := w2.admin_lamports + e.stake }

/-- The not-started-branch state change of `CancelEvent::cancel_event`:
`locked_stake -= stake; stake += stake`, vault refunds the creator's
user account, `canceled := true`. -/
def cancelRefund (w : World) (eid : Nat) (e : Event) (u : User) : World :=
  let w1 := setUser w e.authority
    { stake := wadd u.stake e.stake,
      locked_stake := wsub u.locked_stake e.stake }
  let w2 := setEvent w1 eid
    { e with vault := e.vault - e.stake, canceled := true }
  { w2 with user_lamports := fun k =>
      if k = e.authority then w2.user_lamports e.authority + e.stake
      else w2.user_lamports k }

/-- `CancelEvent::cancel_event` together with its accounts struct.  The
account constraint `state.authority == contract_admin.key()` (error
`AuthorityMismatch`) is checked first, on every path; the `user` account
is derived from `event.authority` (the creator), not from the sender.
The handler then requires
`event.authority == sender || now > end_date + COMPLETION_DEADLINE`,
and branches on `start_date <= now`: forfeit the stake to the admin, or
refund it to the creator.  The vault must cover `stake` for the
transfer to succeed. -/
def cancel_event (w : World) (sender contract_admin event_id : Nat)
    (now : Int) : Except PErr World :=
  if w.state.authority ≠ contract_admin then .error .AuthorityMismatch
  else
    match findEvent w event_id with
    | none => .error .AccountNotFound
    | some e =>
      match lookA w.users e.authority with
      | none => .error .AccountNotFound
      | some u =>
        if ¬ (e.authority = sender ∨ now > e.end_date + COMPLETION_DEADLINE) then
          .error .AuthorityMismatch
        else if e.start_date ≤ now then
          if e.vault < e.stake then .error .InsufficientFunds
          else .ok (cancelForfeit w event_id e u)
        else
          if e.vault < e.stake then .error .InsufficientFunds
          else .ok (cancelRefund w event_id e u)

/-- `CompleteEvent::complete_event` together with its accounts struct:
`event.authority == authority.key()` (else `AuthorityMismatch`) and
`event.end_date < now` (else `EventIsNotOver`); the handler then sets
`result := some result` and nothing else. -/
def complete_event (w : World) (caller event_id : Nat) (result : Nat)
    (now : Int) : Except PErr World :=
  match findEvent w event_id with
  | none => .error .AccountNotFound
  | some e =>
    if e.authority ≠ caller then .error .AuthorityMismatch
    else if ¬ e.end_date < now then .error .EventIsNotOver
    else .ok (setEvent w event_id { e with result := some result })

/-- One request to the program: the four entry points (Update has four
sub-operations), each with its caller(s) and the clock reading. -/
inductive Op
  | create (caller event_id : Nat) (args : CreateEventArgs)
  | updName (caller event_id : Nat) (name : List Nat) (now : Int)
  | updDesc (caller event_id : Nat) (description : List Nat) (now : Int)
  | updEnd (caller event_id : Nat) (end_date : Int) (now : Int)
  | updDeadline (caller event_id : Nat) (deadline : Option Int) (now : Int)
  | cancel (sender contract_admin event_id : Nat) (now : Int)
  | complete (caller event_id : Nat) (result : Nat) (now : Int)

/-- Dispatch one operation. -/
def step (w : World) : Op → Except PErr World
  | .create c eid a => create_event w c eid a
  | .updName c eid n now => update_event_name w c eid n now
  | .updDesc c eid d now => update_event_description w c eid d now
  | .updEnd c eid d now => update_event_end_date w c eid d now
  | .updDeadline c eid d now => update_event_participation_deadline w c eid d now
  | .cancel s ca eid now => cancel_event w s ca eid now
  | .complete c eid r now => complete_event w c eid r now

/-- A base world, as left by the out-of-scope top-up instructions: no
events yet, distinct user keys, every ledger a valid `u64` with nothing
locked. -/
def freshWorld (w : World) : Prop :=
  w.events = [] ∧ w.metas = [] ∧ (w.users.map Prod.fst).Nodup ∧
  ∀ p ∈ w.users, p.2.locked_stake = 0 ∧ p.2.stake < U64_MOD

/-- Worlds reachable from `w0` by successful operations only. -/
inductive Reaches (w0 : World) : World → Prop
  | refl : Reaches w0 w0
  | tail {w w' : World} {op : Op} :
      Reaches w0 w → step w op = .ok w' → Reaches w0 w'

/-- Total spendable stake across all user ledgers. -/
def stakeSum (l : List (Nat × User)) : Nat :=
  (l.map (fun p => p.2.stake)).sum

/-- Total locked stake across all user ledgers. -/
def lockedSum (l : List (Nat × User)) : Nat :=
  (l.map (fun p => p.2.locked_stake)).sum

/-- Total lamports held in event vaults. -/
def vaultSum (l : List Event) : Nat :=
  (l.map Event.vault).sum

/-- Total vault lamports of the events authored by a given principal. -/
def authVaultSum (l : List Event) (a : Nat) : Nat :=
  (l.map (fun e => if e.authority = a then e.vault else 0)).sum

/-- The quantity the spec claims is conserved:
`sum(vault balances) + sum(UserLedger.stake) + sum(UserLedger.lockedStake)`. -/
def specSum (w : World) : Nat :=
  vaultSum w.events + stakeSum w.users + lockedSum w.users

/-- The quantity that actually is conserved by the four operations:
admin balance + total spendable stake + total vault lamports. -/
def consSum (w : World) : Nat :=
  w.admin_lamports + stakeSum w.users + vaultSum w.events

/-- The inductive invariant: distinct user keys, distinct event ids,
every ledger a valid `u64` pair, and every user's locked stake covering
the vaults of the events they authored. -/
def goodWorld (w : World) : Prop :=
  (w.users.map Prod.fst).Nodup ∧
  (w.events.map Event.id).Nodup ∧
  (∀ p ∈ w.users, p.2.stake + p.2.locked_stake < U64_MOD) ∧
  (∀ p ∈ w.users, authVaultSum w.events p.1 ≤ p.2.locked_stake)

theorem wadd_eq {a b : Nat} (h : a + b < U64_MOD) : wadd a b = a + b :=
  Nat.mod_eq_of_lt h

theorem wsub_eq {a b : Nat} (hb : b ≤ a) (ha : a < U64_MOD) :
    wsub a b = a - b := by
  unfold wsub
  have hbm : b % U64_MOD = b := Nat.mod_eq_of_lt (lt_of_le_of_lt hb ha)
  rw [hbm]
  have hbu : b ≤ U64_MOD := le_of_lt (lt_of_le_of_lt hb ha)
  have h1 : a + (U64_MOD - b) = a - b + U64_MOD := by omega
  rw [h1, Nat.add_mod_right]
  exact Nat.mod_eq_of_lt (lt_of_le_of_lt (Nat.sub_le a b) ha)

theorem lookA_mem {α : Type} {l : List (Nat × α)} {k : Nat} {v : α}
    (h : lookA l k = some v) : (k, v) ∈ l := by
  induction l with
  | nil => cases h
  | cons p t ih =>
    by_cases hk : p.1 = k
    · rw [lookA, if_pos hk] at h
      injection h with h2
      subst h2
      subst hk
      exact List.mem_cons_self p t
    · rw [lookA, if_neg hk] at h
      exact List.mem_cons_of_mem _ (ih h)

theorem keys_updA {α : Type} (l : List (Nat × α)) (k : Nat) (v : α) :
    (updA l k v).map Prod.fst = l.map Prod.fst := by
  unfold updA
  rw [List.map_map]
  apply List.map_congr_left
  intro p _
  by_cases h : p.1 = k <;> simp [h]

theorem updA_mem {α : Type} {l : List (Nat × α)} {k : Nat} {v : α} {p : Nat × α}
    (h : p ∈ updA l k v) : p = (k, v) ∨ (p ∈ l ∧ p.1 ≠ k) := by
  unfold updA at h
  rcases List.mem_map.mp h with ⟨q, hq, hfq⟩
  by_cases hk : q.1 = k
  · left; rw [if_pos hk] at hfq; exact hfq.symm
  · right; rw [if_neg hk] at hfq; subst hfq; exact ⟨hq, hk⟩

theorem lookA_updA {α : Type} (l : List (Nat × α)) (k k' : Nat) (v : α) :
    lookA (updA l k v) k' =
      if k' = k then (lookA l k).map (fun _ => v) else lookA l k' := by
  induction l with
  | nil => by_cases h : k' = k <;> simp [lookA, updA, h]
  | cons p t ih =>
    have htail : lookA (updA t k v) k' =
        if k' = k then (lookA t k).map (fun _ => v) else lookA t k' := ih
    by_cases hpk : p.1 = k
    · by_cases hk : k' = k
      · subst hk
        rw [if_pos rfl]
        unfold updA
        rw [List.map_cons, if_pos hpk]
        simp [lookA, hpk]
      · simp only [updA, List.map_cons, if_pos hpk, lookA, if_neg hk,
          if_neg (fun h : k = k' => hk h.symm)]
        rw [show (if p.1 = k' then some p.2 else lookA t k') = lookA t k' from
          if_neg (by rw [hpk]; exact fun h => hk h.symm)]
        unfold updA at htail
        rw [htail, if_neg hk]
    · by_cases hk : k' = k
      · subst hk
        simp only [updA, List.map_cons, if_neg hpk, lookA,
          if_neg (fun h : p.1 = k' => hpk h)]
        unfold updA at htail
        rw [htail]
        simp
      · by_cases hpk' : p.1 = k'
        · simp [updA, lookA, hpk, hpk', hk]
        · simp only [updA, List.map_cons, if_neg hpk, lookA, if_neg hpk',
            if_neg hk]
          unfold updA at htail
          rw [htail, if_neg hk]

theorem no_key_updA {α : Type} {l : List (Nat × α)} {k : Nat} {v : α}
    (h : ∀ p ∈ l, p.1 ≠ k) : updA l k v = l := by
  induction l with
  | nil => rfl
  | cons p t ih =>
    unfold updA
    rw [List.map_cons, if_neg (h p (List.mem_cons_self p t))]
    have := ih (fun q hq => h q (List.mem_cons_of_mem p hq))
    unfold updA at this
    rw [this]

theorem sum_updA {α : Type} (f : α → Nat) {l : List (Nat × α)} {k : Nat}
    {v0 : α} (v : α) (hnd : (l.map Prod.fst).Nodup) (hmem : (k, v0) ∈ l) :
    ((updA l k v).map (fun p => f p.2)).sum + f v0
      = (l.map (fun p => f p.2)).sum + f v := by
  induction l with
  | nil => cases hmem
  | cons p t ih =>
    rw [List.map_cons, List.nodup_cons] at hnd
    by_cases hpk : p.1 = k
    · have hnk : ∀ q ∈ t, q.1 ≠ k := by
        intro q hq hqk
        exact hnd.1 (hpk ▸ hqk ▸ List.mem_map_of_mem Prod.fst hq)
      have hp : p = (k, v0) := by
        rcases List.mem_cons.mp hmem with h1 | h2
        · exact h1.symm
        · exact absurd rfl (hnk _ h2)
      unfold updA
      rw [List.map_cons, if_pos hpk]
      have hno : updA t k v = t := no_key_updA hnk
      unfold updA at hno
      rw [hno, hp]
      simp only [List.map_cons, List.sum_cons]
      omega
    · have hmem' : (k, v0) ∈ t := by
        rcases List.mem_cons.mp hmem with h1 | h2
        · exact absurd (by rw [← h1]) hpk
        · exact h2
      have := ih hnd.2 hmem'
      unfold updA at this ⊢
      rw [List.map_cons, if_neg hpk]
      simp only [List.map_cons, List.sum_cons]
      omega

theorem findE_mem {l : List Event} {eid : Nat} {e : Event}
    (h : findE l eid = some e) : e ∈ l ∧ e.id = eid := by
  induction l with
  | nil => cases h
  | cons x t ih =>
    by_cases hx : x.id = eid
    · rw [findE, if_pos hx] at h
      cases h
      exact ⟨List.mem_cons_self _ _, hx⟩
    · rw [findE, if_neg hx] at h
      exact ⟨List.mem_cons_of_mem _ (ih h).1, (ih h).2⟩

theorem findE_none {l : List Event} {eid : Nat}
    (h : findE l eid = none) : ∀ e ∈ l, e.id ≠ eid := by
  induction l with
  | nil => intro e he; cases he
  | cons x t ih =>
    by_cases hx : x.id = eid
    · rw [findE, if_pos hx] at h; cases h
    · rw [findE, if_neg hx] at h
      intro e he
      rcases List.mem_cons.mp he with h1 | h2
      · rw [h1]; exact hx
      · exact ih h e h2

theorem ids_updE {l : List Event} {eid : Nat} {e' : Event}
    (hid : e'.id = eid) : (updE l eid e').map Event.id = l.map Event.id := by
  unfold updE
  rw [List.map_map]
  apply List.map_congr_left
  intro e _
  by_cases h : e.id = eid <;> simp [h, hid]

theorem no_id_updE {l : List Event} {eid : Nat} {e' : Event}
    (h : ∀ e ∈ l, e.id ≠ eid) : updE l eid e' = l := by
  induction l with
  | nil => rfl
  | cons x t ih =>
    unfold updE
    rw [List.map_cons, if_neg (h x (List.mem_cons_self x t))]
    have := ih (fun q hq => h q (List.mem_cons_of_mem x hq))
    unfold updE at this
    rw [this]

theorem sum_updE (f : Event → Nat) {l : List Event} {eid : Nat} {e : Event}
    (e' : Event) (hnd : (l.map Event.id).Nodup) (hmem : e ∈ l)
    (hid : e.id = eid) :
    ((updE l eid e').map f).sum + f e = (l.map f).sum + f e' := by
  induction l with
  | nil => cases hmem
  | cons x t ih =>
    rw [List.map_cons, List.nodup_cons] at hnd
    by_cases hx : x.id = eid
    · have hnk : ∀ q ∈ t, q.id ≠ eid := by
        intro q hq hqk
        exact hnd.1 (hx ▸ hqk ▸ List.mem_map_of_mem Event.id hq)
      have hex : e = x := by
        rcases List.mem_cons.mp hmem with h1 | h2
        · exact h1
        · exact absurd hid (hnk _ h2)
      unfold updE
      rw [List.map_cons, if_pos hx]
      have hno : updE t eid e' = t := no_id_updE hnk
      unfold updE at hno
      rw [hno, hex]
      simp only [List.map_cons, List.sum_cons]
      omega
    · have hmem' : e ∈ t := by
        rcases List.mem_cons.mp hmem with h1 | h2
        · exact absurd (h1 ▸ hid) hx
        · exact h2
      have := ih hnd.2 hmem'
      unfold updE at this ⊢
      rw [List.map_cons, if_neg hx]
      simp only [List.map_cons, List.sum_cons]
      omega

theorem findE_updE {l : List Event} {eid : Nat} {e : Event} (e' : Event)
    (hf : findE l eid = some e) (hid : e'.id = eid) :
    findE (updE l eid e') eid = some e' := by
  induction l with
  | nil => cases hf
  | cons x t ih =>
    by_cases hx : x.id = eid
    · unfold updE
      rw [List.map_cons, if_pos hx, findE, if_pos hid]
    · rw [findE, if_neg hx] at hf
      unfold updE
      rw [List.map_cons, if_neg hx, findE, if_neg hx]
      have := ih hf
      unfold updE at this
      exact this

theorem findE_append {l : List Event} {eid : Nat} (ev : Event)
    (h : findE l eid = none) (hid : ev.id = eid) :
    findE (l ++ [ev]) eid = some ev := by
  induction l with
  | nil => rw [List.nil_append, findE, if_pos hid]
  | cons x t ih =>
    by_cases hx : x.id = eid
    · rw [findE, if_pos hx] at h; cases h
    · rw [findE, if_neg hx] at h
      rw [List.cons_append, findE, if_neg hx]
      exact ih h

theorem le_authVaultSum {l : List Event} {e : Event} {a : Nat}
    (hmem : e ∈ l) (ha : e.authority = a) : e.vault ≤ authVaultSum l a := by
  unfold authVaultSum
  have : e.vault = (fun x => if x.authority = a then x.vault else 0) e := by
    simp [ha]
  rw [this]
  exact List.single_le_sum (fun x _ => Nat.zero_le _) _
    (List.mem_map_of_mem _ hmem)

theorem authVaultSum_append (l : List Event) (ev : Event) (a : Nat) :
    authVaultSum (l ++ [ev]) a =
      authVaultSum l a + (if ev.authority = a then ev.vault else 0) := by
  unfold authVaultSum
  rw [List.map_append, List.sum_append]
  simp

theorem vaultSum_append (l : List Event) (ev : Event) :
    vaultSum (l ++ [ev]) = vaultSum l + ev.vault := by
  unfold vaultSum
  rw [List.map_append, List.sum_append]
  simp

theorem create_ok_inv {w w' : World} {c eid : Nat} {args : CreateEventArgs}
    (h : create_event w c eid args = .ok w') :
    ∃ user, lookA w.users c = some user ∧ findEvent w eid = none ∧
      lookA w.metas eid = none ∧ validate eid args = .ok () ∧
      w.state.event_price ≤ user.stake ∧
      w.state.event_price ≤ w.user_lamports c ∧
      w' = createApply w c eid args user := by
  unfold create_event at h
  split at h
  · cases h
  next user hu =>
    split at h
    · cases h
    next hfe =>
      split at h
      · cases h
      next hfm =>
        split at h
        · cases h
        next u hv =>
          split at h
          · cases h
          next hst =>
            split at h
            · cases h
            next hlam =>
              injection h with h'
              refine ⟨user, hu, ?_, ?_, ?_, ?_, ?_, h'.symm⟩
              · exact Option.not_isSome_iff_eq_none.mp (by simpa using hfe)
              · exact Option.not_isSome_iff_eq_none.mp (by simpa using hfm)
              · cases u; exact hv
              · exact Nat.le_of_not_lt hst
              · exact Nat.le_of_not_lt hlam

theorem gate_ok_inv {w : World} {c eid : Nat} {now : Int} {e : Event}
    (h : update_gate w c eid now = .ok e) :
    findEvent w eid = some e ∧ e.authority = c ∧ now < e.start_date := by
  unfold update_gate at h
  split at h
  · cases h
  next e0 hf =>
    split at h
    · cases h
    next hauth =>
      split at h
      · cases h
      next hdate =>
        injection h with h'
        subst h'
        exact ⟨hf, not_ne_iff.mp hauth, not_not.mp hdate⟩

theorem updName_ok_inv {w w' : World} {c eid : Nat} {n : List Nat} {now : Int}
    (h : update_event_name w c eid n now = .ok w') :
    w'.users = w.users ∧ w'.events = w.events ∧ w'.state = w.state ∧
      w'.admin_lamports = w.admin_lamports := by
  unfold update_event_name at h
  split at h
  · cases h
  split at h
  · cases h
  injection h with h'
  subst h'
  exact ⟨rfl, rfl, rfl, rfl⟩

theorem updDesc_ok_inv {w w' : World} {c eid : Nat} {d : List Nat} {now : Int}
    (h : update_event_description w c eid d now = .ok w') :
    w'.users = w.users ∧ w'.events = w.events ∧ w'.state = w.state ∧
      w'.admin_lamports = w.admin_lamports := by
  unfold update_event_description at h
  split at h
  · cases h
  split at h
  · cases h
  injection h with h'
  subst h'
  exact ⟨rfl, rfl, rfl, rfl⟩

theorem updEnd_ok_inv {w w' : World} {c eid : Nat} {d now : Int}
    (h : update_event_end_date w c eid d now = .ok w') :
    ∃ e, update_gate w c eid now = .ok e ∧
      w' = setEvent w eid { e with end_date := d } := by
  unfold update_event_end_date at h
  split at h
  · cases h
  next e hg =>
    split at h
    · cases h
    split at h
    · cases h
    split at h
    next dl hdl =>
      split at h
      · cases h
      injection h with h'
      exact ⟨e, hg, h'.symm⟩
    next hdl =>
      injection h with h'
      exact ⟨e, hg, h'.symm⟩

theorem updDeadline_ok_inv {w w' : World} {c eid : Nat} {dl : Option Int}
    {now : Int}
    (h : update_event_participation_deadline w c eid dl now = .ok w') :
    ∃ e, update_gate w c eid now = .ok e ∧
      w' = setEvent w eid { e with participation_deadline := dl } := by
  unfold update_event_participation_deadline at h
  split at h
  · cases h
  next e hg =>
    split at h
    · cases h
    split at h
    · split at h
      · injection h with h'
        exact ⟨e, hg, h'.symm⟩
      · cases h
    · injection h with h'
      exact ⟨e, hg, h'.symm⟩

theorem complete_ok_inv {w w' : World} {c eid r : Nat} {now : Int}
    (h : complete_event w c eid r now = .ok w') :
    ∃ e, findEvent w eid = some e ∧ e.authority = c ∧ e.end_date < now ∧
      w' = setEvent w eid { e with result := some r } := by
  unfold complete_event at h
  split at h
  · cases h
  next e hf =>
    split at h
    · cases h
    next hauth =>
      split at h
      · cases h
      next hdate =>
        injection h with h'
        exact ⟨e, hf, not_ne_iff.mp hauth, not_not.mp hdate, h'.symm⟩

theorem cancel_ok_inv {w w' : World} {s ca eid : Nat} {now : Int}
    (h : cancel_event w s ca eid now = .ok w') :
    ∃ e u, w.state.authority = ca ∧ findEvent w eid = some e ∧
      lookA w.users e.authority = some u ∧
      (e.authority = s ∨ now > e.end_date + COMPLETION_DEADLINE) ∧
      e.stake ≤ e.vault ∧
      ((e.start_date ≤ now ∧ w' = cancelForfeit w eid e u) ∨
       (¬ e.start_date ≤ now ∧ w' = cancelRefund w eid e u)) := by
  unfold cancel_event at h
  split at h
  · cases h
  next hca =>
    split at h
    · cases h
    next e hf =>
      split at h
      · cases h
      next u hu =>
        split at h
        · cases h
        next hauth =>
          split at h
          next hstart =>
            split at h
            · cases h
            next hvault =>
              injection h with h'
              exact ⟨e, u, not_ne_iff.mp hca, hf, hu, not_not.mp hauth,
                Nat.le_of_not_lt hvault, Or.inl ⟨hstart, h'.symm⟩⟩
          next hstart =>
            split at h
            · cases h
            next hvault =>
              injection h with h'
              exact ⟨e, u, not_ne_iff.mp hca, hf, hu, not_not.mp hauth,
                Nat.le_of_not_lt hvault, Or.inr ⟨hstart, h'.symm⟩⟩

theorem le_vaultSum {l : List Event} {e : Event} (hmem : e ∈ l) :
    e.vault ≤ vaultSum l :=
  List.single_le_sum (fun _ _ => Nat.zero_le _) _
    (List.mem_map_of_mem Event.vault hmem)

theorem le_stakeSum {l : List (Nat × User)} {p : Nat × User} (hmem : p ∈ l) :
    p.2.stake ≤ stakeSum l :=
  List.single_le_sum (fun _ _ => Nat.zero_le _) _
    (List.mem_map_of_mem (fun q => q.2.stake) hmem)

theorem setEvent_benign {w : World} {eid : Nat} {e : Event} (e2 : Event)
    (hg : goodWorld w) (he : findEvent w eid = some e)
    (hid : e2.id = e.id) (hvt : e2.vault = e.vault)
    (ha : e2.authority = e.authority) :
    goodWorld (setEvent w eid e2) ∧ consSum (setEvent w eid e2) = consSum w := by
  obtain ⟨hm, hide⟩ := findE_mem he
  obtain ⟨hnu, hne, hb, hl⟩ := hg
  have hid2 : e2.id = eid := hid.trans hide
  have hus : (setEvent w eid e2).users = w.users := rfl
  have hev : (setEvent w eid e2).events = updE w.events eid e2 := rfl
  have had : (setEvent w eid e2).admin_lamports = w.admin_lamports := rfl
  have hvs : vaultSum (updE w.events eid e2) + e.vault
      = vaultSum w.events + e2.vault :=
    sum_updE Event.vault e2 hne hm hide
  rw [hvt] at hvs
  unfold goodWorld consSum
  rw [hus, hev, had]
  refine ⟨⟨hnu, ?_, hb, ?_⟩, ?_⟩
  · rw [ids_updE hid2]
    exact hne
  · intro p hp
    have h : authVaultSum (updE w.events eid e2) p.1
          + (if e.authority = p.1 then e.vault else 0)
        = authVaultSum w.events p.1
          + (if e2.authority = p.1 then e2.vault else 0) :=
      sum_updE (fun ev => if ev.authority = p.1 then ev.vault else 0) e2
        hne hm hide
    rw [ha, hvt] at h
    have h2 : authVaultSum (updE w.events eid e2) p.1
        = authVaultSum w.events p.1 := by omega
    rw [h2]
    exact hl p hp
  · omega

theorem createApply_preserves {w : World} {c eid : Nat}
    {args : CreateEventArgs} {user : User}
    (hg : goodWorld w) (hu : lookA w.users c = some user)
    (hfe : findEvent w eid = none) (hst : w.state.event_price ≤ user.stake) :
    goodWorld (createApply w c eid args user) ∧
      consSum (createApply w c eid args user) = consSum w := by
  obtain ⟨hnu, hne, hb, hl⟩ := hg
  have hmemu : (c, user) ∈ w.users := lookA_mem hu
  have hbu : user.stake + user.locked_stake < U64_MOD := hb _ hmemu
  have hlu : authVaultSum w.events c ≤ user.locked_stake := hl _ hmemu
  have hsub : wsub user.stake w.state.event_price
      = user.stake - w.state.event_price := wsub_eq hst (by omega)
  have hadd : wadd user.locked_stake w.state.event_price
      = user.locked_stake + w.state.event_price := wadd_eq (by omega)
  have hfeids := findE_none hfe
  have hus : (createApply w c eid args user).users = updA w.users c
      { stake := wsub user.stake w.state.event_price,
        locked_stake := wadd user.locked_stake w.state.event_price } := rfl
  have hev : (createApply w c eid args user).events = w.events ++
      [{ id := eid, authority := c, stake := w.state.event_price,
         start_date := args.start_date, end_date := args.end_date,
         participation_deadline := args.participation_deadline,
         canceled := false, result := none, version := 1,
         vault := w.state.event_price }] := rfl
  have had : (createApply w c eid args user).admin_lamports
      = w.admin_lamports := rfl
  have hstake : stakeSum (updA w.users c
      { stake := wsub user.stake w.state.event_price,
        locked_stake := wadd user.locked_stake w.state.event_price })
      + user.stake
      = stakeSum w.users + wsub user.stake w.state.event_price :=
    sum_updA (fun x : User => x.stake) _ hnu hmemu
  unfold goodWorld consSum
  rw [hus, hev, had]
  refine ⟨⟨?_, ?_, ?_, ?_⟩, ?_⟩
  · rw [keys_updA]
    exact hnu
  · rw [List.map_append, List.nodup_append]
    refine ⟨hne, List.nodup_singleton _, ?_⟩
    intro x hx hx1
    simp only [List.map_cons, List.map_nil, List.mem_singleton] at hx1
    rcases List.mem_map.mp hx with ⟨ev, hev2, hevid⟩
    exact hfeids ev hev2 (hevid.trans hx1)
  · intro p hp
    rcases updA_mem hp with hnew | ⟨hold, hnc⟩
    · rw [hnew]
      show wsub user.stake w.state.event_price
        + wadd user.locked_stake w.state.event_price < U64_MOD
      rw [hsub, hadd]
      omega
    · exact hb p hold
  · intro p hp
    rw [authVaultSum_append]
    rcases updA_mem hp with hnew | ⟨hold, hnc⟩
    · rw [hnew]
      show authVaultSum w.events c + (if c = c then w.state.event_price else 0)
        ≤ wadd user.locked_stake w.state.event_price
      rw [if_pos rfl, hadd]
      omega
    · show authVaultSum w.events p.1
          + (if c = p.1 then w.state.event_price else 0)
        ≤ p.2.locked_stake
      rw [if_neg (fun hc => hnc hc.symm), Nat.add_zero]
      exact hl p hold
  · rw [vaultSum_append]
    show w.admin_lamports + stakeSum (updA w.users c
        { stake := wsub user.stake w.state.event_price,
          locked_stake := wadd user.locked_stake w.state.event_price })
        + (vaultSum w.events + w.state.event_price)
      = w.admin_lamports + stakeSum w.users + vaultSum w.events
    omega

theorem cancelForfeit_preserves {w : World} {eid : Nat} {e : Event} {u : User}
    (hg : goodWorld w) (he : findEvent w eid = some e)
    (hu : lookA w.users e.authority = some u) (hsv : e.stake ≤ e.vault) :
    goodWorld (cancelForfeit w eid e u) ∧
      consSum (cancelForfeit w eid e u) = consSum w := by
  obtain ⟨hm, hide⟩ := findE_mem he
  obtain ⟨hnu, hne, hb, hl⟩ := hg
  have hmemu : (e.authority, u) ∈ w.users := lookA_mem hu
  have hbu : u.stake + u.locked_stake < U64_MOD := hb _ hmemu
  have hlu : authVaultSum w.events e.authority ≤ u.locked_stake := hl _ hmemu
  have hvle : e.vault ≤ authVaultSum w.events e.authority :=
    le_authVaultSum hm rfl
  have hsl : e.stake ≤ u.locked_stake := by omega
  have hsub : wsub u.locked_stake e.stake = u.locked_stake - e.stake :=
    wsub_eq hsl (by omega)
  have hus : (cancelForfeit w eid e u).users = updA w.users e.authority
      { u with locked_stake := wsub u.locked_stake e.stake } := rfl
  have hev : (cancelForfeit w eid e u).events = updE w.events eid
      { e with vault := e.vault - e.stake, canceled := true } := rfl
  have had : (cancelForfeit w eid e u).admin_lamports
      = w.admin_lamports + e.stake := rfl
  have hid2 : ({ e with vault := e.vault - e.stake, canceled := true } : Event).id = eid := hide
  have hstake : stakeSum (updA w.users e.authority
      { u with locked_stake := wsub u.locked_stake e.stake }) + u.stake
      = stakeSum w.users + u.stake :=
    sum_updA (fun x : User => x.stake) _ hnu hmemu
  have hvs : vaultSum (updE w.events eid
        { e with vault := e.vault - e.stake, canceled := true }) + e.vault
      = vaultSum w.events + (e.vault - e.stake) :=
    sum_updE Event.vault _ hne hm hide
  have hva : ∀ a : Nat, authVaultSum (updE w.events eid
        { e with vault := e.vault - e.stake, canceled := true }) a
        + (if e.authority = a then e.vault else 0)
      = authVaultSum w.events a
        + (if e.authority = a then e.vault - e.stake else 0) :=
    fun a => sum_updE (fun ev => if ev.authority = a then ev.vault else 0)
      _ hne hm hide
  unfold goodWorld consSum
  rw [hus, hev, had]
  refine ⟨⟨?_, ?_, ?_, ?_⟩, ?_⟩
  · rw [keys_updA]
    exact hnu
  · rw [ids_updE hid2]
    exact hne
  · intro p hp
    rcases updA_mem hp with hnew | ⟨hold, hnc⟩
    · rw [hnew]
      show u.stake + wsub u.locked_stake e.stake < U64_MOD
      rw [hsub]
      omega
    · exact hb p hold
  · intro p hp
    rcases updA_mem hp with hnew | ⟨hold, hnc⟩
    · rw [hnew]
      show authVaultSum (updE w.events eid
          { e with vault := e.vault - e.stake, canceled := true }) e.authority
        ≤ wsub u.locked_stake e.stake
      have h := hva e.authority
      rw [if_pos rfl, if_pos rfl] at h
      rw [hsub]
      omega
    · have h := hva p.1
      rw [if_neg (fun hc => hnc hc.symm),
        if_neg (fun hc => hnc hc.symm), Nat.add_zero, Nat.add_zero] at h
      rw [h]
      exact hl p hold
  · omega

theorem cancelRefund_preserves {w : World} {eid : Nat} {e : Event} {u : User}
    (hg : goodWorld w) (he : findEvent w eid = some e)
    (hu : lookA w.users e.authority = some u) (hsv : e.stake ≤ e.vault) :
    goodWorld (cancelRefund w eid e u) ∧
      consSum (cancelRefund w eid e u) = consSum w := by
  obtain ⟨hm, hide⟩ := findE_mem he
  obtain ⟨hnu, hne, hb, hl⟩ := hg
  have hmemu : (e.authority, u) ∈ w.users := lookA_mem hu
  have hbu : u.stake + u.locked_stake < U64_MOD := hb _ hmemu
  have hlu : authVaultSum w.events e.authority ≤ u.locked_stake := hl _ hmemu
  have hvle : e.vault ≤ authVaultSum w.events e.authority :=
    le_authVaultSum hm rfl
  have hsl : e.stake ≤ u.locked_stake := by omega
  have hsub : wsub u.locked_stake e.stake = u.locked_stake - e.stake :=
    wsub_eq hsl (by omega)
  have haddx : wadd u.stake e.stake = u.stake + e.stake :=
    wadd_eq (by omega)
  have hus : (cancelRefund w eid e u).users = updA w.users e.authority
      { stake := wadd u.stake e.stake,
        locked_stake := wsub u.locked_stake e.stake } := rfl
  have hev : (cancelRefund w eid e u).events = updE w.events eid
      { e with vault := e.vault - e.stake, canceled := true } := rfl
  have had : (cancelRefund w eid e u).admin_lamports
      = w.admin_lamports := rfl
  have hid2 : ({ e with vault := e.vault - e.stake, canceled := true } : Event).id = eid := hide
  have hstake : stakeSum (updA w.users e.authority
      { stake := wadd u.stake e.stake,
        locked_stake := wsub u.locked_stake e.stake }) + u.stake
      = stakeSum w.users + wadd u.stake e.stake :=
    sum_updA (fun x : User => x.stake) _ hnu hmemu
  have hvs : vaultSum (updE w.events eid
        { e with vault := e.vault - e.stake, canceled := true }) + e.vault
      = vaultSum w.events + (e.vault - e.stake) :=
    sum_updE Event.vault _ hne hm hide
  have hva : ∀ a : Nat, authVaultSum (updE w.events eid
        { e with vault := e.vault - e.stake, canceled := true }) a
        + (if e.authority = a then e.vault else 0)
      = authVaultSum w.events a
        + (if e.authority = a then e.vault - e.stake else 0) :=
    fun a => sum_updE (fun ev => if ev.authority = a then ev.vault else 0)
      _ hne hm hide
  unfold goodWorld consSum
  rw [hus, hev, had]
  refine ⟨⟨?_, ?_, ?_, ?_⟩, ?_⟩
  · rw [keys_updA]
    exact hnu
  · rw [ids_updE hid2]
    exact hne
  · intro p hp
    rcases updA_mem hp with hnew | ⟨hold, hnc⟩
    · rw [hnew]
      show wadd u.stake e.stake + wsub u.locked_stake e.stake < U64_MOD
      rw [hsub, haddx]
      omega
    · exact hb p hold
  · intro p hp
    rcases updA_mem hp with hnew | ⟨hold, hnc⟩
    · rw [hnew]
      show authVaultSum (updE w.events eid
          { e with vault := e.vault - e.stake, canceled := true }) e.authority
        ≤ wsub u.locked_stake e.stake
      have h := hva e.authority
      rw [if_pos rfl, if_pos rfl] at h
      rw [hsub]
      omega
    · have h := hva p.1
      rw [if_neg (fun hc => hnc hc.symm),
        if_neg (fun hc => hnc hc.symm), Nat.add_zero, Nat.add_zero] at h
      rw [h]
      exact hl p hold
  · omega

theorem step_preserves {w w' : World} {op : Op} (hg : goodWorld w)
    (h : step w op = .ok w') :
    goodWorld w' ∧ consSum w' = consSum w := by
  cases op with
  | create c eid args =>
    obtain ⟨user, hu, hfe, _, _, hst, _, hw⟩ := create_ok_inv h
    subst hw
    exact createApply_preserves hg hu hfe hst
  | updName c eid n now =>
    obtain ⟨h1, h2, _, h4⟩ := updName_ok_inv h
    constructor
    · unfold goodWorld
      rw [h1, h2]
      exact hg
    · unfold consSum
      rw [h1, h2, h4]
  | updDesc c eid d now =>
    obtain ⟨h1, h2, _, h4⟩ := updDesc_ok_inv h
    constructor
    · unfold goodWorld
      rw [h1, h2]
      exact hg
    · unfold consSum
      rw [h1, h2, h4]
  | updEnd c eid d now =>
    obtain ⟨e, hgk, hw⟩ := updEnd_ok_inv h
    obtain ⟨hf, _, _⟩ := gate_ok_inv hgk
    subst hw
    exact setEvent_benign _ hg hf rfl rfl rfl
  | updDeadline c eid dl now =>
    obtain ⟨e, hgk, hw⟩ := updDeadline_ok_inv h
    obtain ⟨hf, _, _⟩ := gate_ok_inv hgk
    subst hw
    exact setEvent_benign _ hg hf rfl rfl rfl
  | cancel s ca eid now =>
    obtain ⟨e, u, _, hf, hu, _, hsv, hbr⟩ := cancel_ok_inv h
    rcases hbr with ⟨_, hw⟩ | ⟨_, hw⟩
    · subst hw
      exact cancelForfeit_preserves hg hf hu hsv
    · subst hw
      exact cancelRefund_preserves hg hf hu hsv
  | complete c eid r now =>
    obtain ⟨e, hf, _, _, hw⟩ := complete_ok_inv h
    subst hw
    exact setEvent_benign _ hg hf rfl rfl rfl

theorem fresh_good {w : World} (h : freshWorld w) : goodWorld w := by
  obtain ⟨he, _, hnd, hb⟩ := h
  refine ⟨hnd, ?_, ?_, ?_⟩
  · rw [he]
    exact List.nodup_nil
  · intro p hp
    have := hb p hp
    omega
  · intro p hp
    rw [he]
    show authVaultSum [] p.1 ≤ p.2.locked_stake
    exact Nat.zero_le _

theorem reaches_good {w0 w : World} (h0 : goodWorld w0) (hr : Reaches w0 w) :
    goodWorld w ∧ consSum w = consSum w0 := by
  induction hr with
  | refl => exact ⟨h0, rfl⟩
  | tail hr hs ih =>
    obtain ⟨hgw, hcs⟩ := ih
    obtain ⟨hgw', hcs'⟩ := step_preserves hgw hs
    exact ⟨hgw', hcs'.trans hcs⟩

/-- Identity of two events of one list sharing an id, under distinct ids. -/
theorem eq_of_same_id {l : List Event} {e e' : Event}
    (hnd : (l.map Event.id).Nodup) (hm : e ∈ l) (hm' : e' ∈ l)
    (hid : e.id = e'.id) : e = e' := by
  induction l with
  | nil => cases hm
  | cons x t ih =>
    rw [List.map_cons, List.nodup_cons] at hnd
    rcases List.mem_cons.mp hm with h1 | h2 <;>
      rcases List.mem_cons.mp hm' with h3 | h4
    · rw [h1, h3]
    · exfalso
      apply hnd.1
      have hx : Event.id e' ∈ List.map Event.id t :=
        List.mem_map_of_mem Event.id h4
      rw [← hid, h1] at hx
      exact hx
    · exfalso
      apply hnd.1
      have hx : Event.id e ∈ List.map Event.id t :=
        List.mem_map_of_mem Event.id h2
      rw [hid, h3] at hx
      exact hx
    · exact ih hnd.2 h2 h4

/-- Monotonicity of the terminal flags across one event-account rewrite. -/
theorem mem_updE_mono {l : List Event} {eid : Nat} {e0 e2 e : Event}
    (hnd : (l.map Event.id).Nodup) (hf : findE l eid = some e0)
    (hmem : e ∈ l) (hid : e2.id = eid)
    (hc : e0.canceled = true → e2.canceled = true)
    (hr : ∀ r, e0.result = some r → ∃ r', e2.result = some r') :
    ∃ e' ∈ updE l eid e2, e'.id = e.id ∧
      (e.canceled = true → e'.canceled = true) ∧
      (∀ r, e.result = some r → ∃ r', e'.result = some r') := by
  obtain ⟨hm0, hid0⟩ := findE_mem hf
  by_cases hcase : e.id = eid
  · have hee : e = e0 := eq_of_same_id hnd hmem hm0 (hcase.trans hid0.symm)
    refine ⟨e2, ?_, hid.trans hcase.symm, hee ▸ hc, hee ▸ hr⟩
    have hmm : (if e.id = eid then e2 else e) ∈ updE l eid e2 :=
      List.mem_map_of_mem _ hmem
    rw [if_pos hcase] at hmm
    exact hmm
  · refine ⟨e, ?_, rfl, fun h => h, fun r h => ⟨r, h⟩⟩
    have hmm : (if e.id = eid then e2 else e) ∈ updE l eid e2 :=
      List.mem_map_of_mem _ hmem
    rw [if_neg hcase] at hmm
    exact hmm

/-- Demo global config: admin principal 9, stake price 5 lamports. -/
def demoState : State := { authority := 9, event_price := 5 }

/-- Demo base world: one user (principal 1) with 5 spendable stake. -/
def demoW0 : World :=
  { state := demoState,
    users := [(1, { stake := 5, locked_stake := 0 })],
    events := [], metas := [],
    user_lamports := fun k => if k = 1 then 5 else 0,
    admin_lamports := 0 }

/-- Demo event id with version nibble 4. -/
def demoEid : Nat := 4 <<< 76

/-- Demo creation arguments: start 10, end 20, no deadline. -/
def demoArgs : CreateEventArgs :=
  { name := [0], is_private := false, description := [0],
    start_date := 10, end_date := 20, participation_deadline := none }

/-- Extract the successful world of an operation (default on failure). -/
def getOk (d : World) : Except PErr World → World
  | .ok w => w
  | .error _ => d

/-- Demo world after user 1 creates the demo event. -/
def demoW1 : World := getOk demoW0 (create_event demoW0 1 demoEid demoArgs)

/-- The demo event account as created in `demoW1`. -/
def demoEvent : Event :=
  { id := demoEid, authority := 1, stake := 5, start_date := 10,
    end_date := 20, participation_deadline := none, canceled := false,
    result := none, version := 1, vault := 5 }

/-- The demo event-meta account as created in `demoW1`. -/
def demoMeta : EventMeta :=
  { event_id := demoEid, name := [0], description := [0],
    is_private := false, version := 1 }

/-- Demo world after the creator cancels the demo event before it starts. -/
def demoW2c : World := getOk demoW0 (cancel_event demoW1 1 9 demoEid 5)

/-- Demo world after the creator completes the demo event with result 1. -/
def demoWc1 : World := getOk demoW0 (complete_event demoW1 1 demoEid 1 21)

/-- Demo world after a second complete with result 2 on the already
completed demo event. -/
def demoWc2 : World := getOk demoW0 (complete_event demoWc1 1 demoEid 2 21)

/-- The demo base world is fresh. -/
theorem demo_fresh : freshWorld demoW0 := ⟨rfl, rfl, by decide, by decide⟩

/-- C1 (counterexample): the spec's conserved quantity
`sum(vaults) + sum(stake) + sum(lockedStake)` is not invariant: one
successful CreateEvent raises it from 5 to 10 — by the stake price —
because the escrow is counted both in the vault and in `lockedStake`. -/
theorem C1_counterexample :
    step demoW0 (Op.create 1 demoEid demoArgs) = .ok demoW1 ∧
    specSum demoW0 = 5 ∧ specSum demoW1 = 10 ∧
    specSum demoW1 ≠ specSum demoW0 := by
  refine ⟨rfl, ?_, ?_, ?_⟩ <;> decide

/-- C1 (amended): the conserved quantity of the four operations is
admin balance + total spendable stake + total vault lamports
(`consSum`); every world reachable from a fresh world by successful
operations has the same `consSum`.  (`lockedStake` must be excluded:
it is a bookkeeping mirror of the vault, so including it double-counts
the escrow and Create then raises the sum by `stakePrice`.) -/
theorem C1_conservation {w0 w : World} (h0 : freshWorld w0)
    (hr : Reaches w0 w) : consSum w = consSum w0 :=
  (reaches_good (fresh_good h0) hr).2

/-- C1 witness: the conservation theorem applied to the concrete
one-create trace. -/
theorem C1_conservation_witness : consSum demoW1 = consSum demoW0 :=
  C1_conservation demo_fresh
    (Reaches.tail Reaches.refl
      (rfl : step demoW0 (Op.create 1 demoEid demoArgs) = .ok demoW1))

/-- C4 (counterexample): `Event.result` is not set at most once and is
not terminal: after completing the demo event with result 1, a second
CompleteEvent with result 2 succeeds and overwrites the stored result. -/
theorem C4_counterexample :
    complete_event demoW1 1 demoEid 1 21 = .ok demoWc1 ∧
    (findEvent demoWc1 demoEid).map Event.result = some (some 1) ∧
    complete_event demoWc1 1 demoEid 2 21 = .ok demoWc2 ∧
    (findEvent demoWc2 demoEid).map Event.result = some (some 2) := by
  refine ⟨rfl, ?_, rfl, ?_⟩ <;> decide

/-- C4 (amended): the terminal flags are monotone — no successful
operation resets `canceled` to false, and once `result` is `some _` it
stays `some _` — but the transitions are not exclusive: a repeated
CompleteEvent is accepted and overwrites the result value (see the
counterexample). -/
theorem C4_terminal_monotone {w w' : World} {op : Op}
    (hnd : (w.events.map Event.id).Nodup) (h : step w op = .ok w')
    {e : Event} (he : e ∈ w.events) :
    ∃ e' ∈ w'.events, e'.id = e.id ∧
      (e.canceled = true → e'.canceled = true) ∧
      (∀ r, e.result = some r → ∃ r', e'.result = some r') := by
  cases op with
  | create c eid args =>
    obtain ⟨user, _, _, _, _, _, _, hw⟩ := create_ok_inv h
    subst hw
    exact ⟨e, List.mem_append_left _ he, rfl, fun hx => hx, fun r hx => ⟨r, hx⟩⟩
  | updName c eid n now =>
    obtain ⟨_, h2, _, _⟩ := updName_ok_inv h
    rw [h2]
    exact ⟨e, he, rfl, fun hx => hx, fun r hx => ⟨r, hx⟩⟩
  | updDesc c eid d now =>
    obtain ⟨_, h2, _, _⟩ := updDesc_ok_inv h
    rw [h2]
    exact ⟨e, he, rfl, fun hx => hx, fun r hx => ⟨r, hx⟩⟩
  | updEnd c eid d now =>
    obtain ⟨e0, hgk, hw⟩ := updEnd_ok_inv h
    obtain ⟨hf, _, _⟩ := gate_ok_inv hgk
    subst hw
    exact mem_updE_mono hnd hf he (findE_mem hf).2
      (fun hx => hx) (fun r hx => ⟨r, hx⟩)
  | updDeadline c eid dl now =>
    obtain ⟨e0, hgk, hw⟩ := updDeadline_ok_inv h
    obtain ⟨hf, _, _⟩ := gate_ok_inv hgk
    subst hw
    exact mem_updE_mono hnd hf he (findE_mem hf).2
      (fun hx => hx) (fun r hx => ⟨r, hx⟩)
  | cancel s ca eid now =>
    obtain ⟨e0, u, _, hf, _, _, _, hbr⟩ := cancel_ok_inv h
    rcases hbr with ⟨_, hw⟩ | ⟨_, hw⟩ <;> subst hw <;>
      exact mem_updE_mono hnd hf he (findE_mem hf).2
        (fun _ => rfl) (fun r hx => ⟨r, hx⟩)
  | complete c eid r now =>
    obtain ⟨e0, hf, _, _, hw⟩ := complete_ok_inv h
    subst hw
    exact mem_updE_mono hnd hf he (findE_mem hf).2
      (fun hx => hx) (fun _ _ => ⟨r, rfl⟩)

/-- C4 witness: monotonicity applied to the concrete first complete. -/
theorem C4_terminal_monotone_witness :
    ∃ e' ∈ demoWc1.events, e'.id = demoEvent.id ∧
      (demoEvent.canceled = true → e'.canceled = true) ∧
      (∀ r, demoEvent.result = some r → ∃ r', e'.result = some r') :=
  C4_terminal_monotone (by decide)
    (rfl : step demoW1 (Op.complete 1 demoEid 1 21) = .ok demoWc1)
    (by decide)

/-- C5: in every world reachable by successful operations from a fresh
world, the ledger fields are valid `u64` values, every successful
CancelEvent subtracts `event.stake` from a `locked_stake` that is at
least that large, and every successful CreateEvent subtracts
`event_price` from a `stake` that is at least that large — the
subtractions never underflow. -/
theorem C5_no_underflow {w0 w : World} (h0 : freshWorld w0)
    (hr : Reaches w0 w) :
    (∀ p ∈ w.users, p.2.stake + p.2.locked_stake < U64_MOD) ∧
    (∀ (s ca eid : Nat) (now : Int) (w' : World) (e : Event) (u : User),
      cancel_event w s ca eid now = .ok w' →
      findEvent w eid = some e → lookA w.users e.authority = some u →
      e.stake ≤ u.locked_stake) ∧
    (∀ (c eid : Nat) (args : CreateEventArgs) (w' : World) (u : User),
      create_event w c eid args = .ok w' →
      lookA w.users c = some u → w.state.event_price ≤ u.stake) := by
  obtain ⟨⟨hnu, hne, hb, hl⟩, _⟩ := reaches_good (fresh_good h0) hr
  refine ⟨hb, ?_, ?_⟩
  · intro s ca eid now w' e u hc he hu
    obtain ⟨e2, u2, _, he2, hu2, _, hsv, _⟩ := cancel_ok_inv hc
    rw [he] at he2
    injection he2 with hee
    subst hee
    rw [hu] at hu2
    injection hu2 with huu
    subst huu
    have hlu : authVaultSum w.events e.authority ≤ u.locked_stake :=
      hl _ (lookA_mem hu)
    have hvle : e.vault ≤ authVaultSum w.events e.authority :=
      le_authVaultSum (findE_mem he).1 rfl
    omega
  · intro c eid args w' u hc hu
    obtain ⟨u2, hu2, _, _, _, hst, _, _⟩ := create_ok_inv hc
    rw [hu] at hu2
    injection hu2 with huu
    subst huu
    exact hst

/-- C5 witness: the cancel clause applied to the concrete refund
cancel of the demo event. -/
theorem C5_no_underflow_witness : demoEvent.stake ≤ (5 : Nat) :=
  (C5_no_underflow demo_fresh
      (Reaches.tail Reaches.refl
        (rfl : step demoW0 (Op.create 1 demoEid demoArgs) = .ok demoW1))).2.1
    1 9 demoEid 5 demoW2c demoEvent { stake := 0, locked_stake := 5 }
    rfl rfl rfl

/-- C10: every CancelEvent call — whoever the sender is and whatever
the time — fails with AuthorityMismatch when the supplied
`contract_admin` account differs from the configured admin identity
(`state.authority`). -/
theorem C10_cancel_requires_admin (w : World) (sender ca eid : Nat)
    (now : Int) (h : w.state.authority ≠ ca) :
    cancel_event w sender ca eid now = .error .AuthorityMismatch := by
  unfold cancel_event
  rw [if_pos h]

/-- C10 witness: a creator refund-cancel with a wrong admin account
fails, at the concrete demo world. -/
theorem C10_cancel_requires_admin_witness :
    cancel_event demoW1 1 8 demoEid 5 = .error .AuthorityMismatch :=
  C10_cancel_requires_admin demoW1 1 8 demoEid 5 (by decide)

/-- C2: on every successful CancelEvent, if the event already started
(`start_date <= now`) the creator's locked stake drops by exactly the
event's stake, the spendable stake is unchanged, the vault pays the
stake to the admin's balance and the creator's account receives
nothing; otherwise locked stake drops and spendable stake rises by the
stake, and the vault pays the creator's account.  Both branches set
`canceled := true` and drain the vault by the stake. -/
theorem C2_cancel_effects {w w' : World} {s ca eid : Nat} {now : Int}
    {e : Event} {u : User}
    (he : findEvent w eid = some e) (hu : lookA w.users e.authority = some u)
    (hsl : e.stake ≤ u.locked_stake)
    (hbnd : u.stake + u.locked_stake < U64_MOD)
    (hc : cancel_event w s ca eid now = .ok w') :
    (e.start_date ≤ now →
      lookA w'.users e.authority
        = some { stake := u.stake,
                 locked_stake := u.locked_stake - e.stake } ∧
      w'.admin_lamports = w.admin_lamports + e.stake ∧
      w'.user_lamports = w.user_lamports ∧
      findEvent w' eid
        = some { e with vault := e.vault - e.stake, canceled := true }) ∧
    (¬ e.start_date ≤ now →
      lookA w'.users e.authority
        = some { stake := u.stake + e.stake,
                 locked_stake := u.locked_stake - e.stake } ∧
      w'.admin_lamports = w.admin_lamports ∧
      w'.user_lamports e.authority = w.user_lamports e.authority + e.stake ∧
      findEvent w' eid
        = some { e with vault := e.vault - e.stake, canceled := true }) := by
  obtain ⟨e2, u2, hca, he2, hu2, hor, hsv, hbr⟩ := cancel_ok_inv hc
  rw [he] at he2
  injection he2 with hee
  subst hee
  rw [hu] at hu2
  injection hu2 with huu
  subst huu
  have hsub : wsub u.locked_stake e.stake = u.locked_stake - e.stake :=
    wsub_eq hsl (by omega)
  have hid2 : ({ e with vault := e.vault - e.stake, canceled := true } : Event).id = eid :=
    (findE_mem he).2
  rcases hbr with ⟨hst, hw⟩ | ⟨hst, hw⟩ <;> subst hw
  · refine ⟨fun _ => ⟨?_, rfl, rfl, ?_⟩, fun hns => absurd hst hns⟩
    · have hus : (cancelForfeit w eid e u).users = updA w.users e.authority
          { u with locked_stake := wsub u.locked_stake e.stake } := rfl
      rw [hus, lookA_updA, if_pos (rfl : e.authority = e.authority), hu, hsub]
      rfl
    · show findE (cancelForfeit w eid e u).events eid = _
      have hev : (cancelForfeit w eid e u).events = updE w.events eid
          { e with vault := e.vault - e.stake, canceled := true } := rfl
      rw [hev]
      exact findE_updE _ he hid2
  · refine ⟨fun hs => absurd hs hst, fun _ => ⟨?_, rfl, ?_, ?_⟩⟩
    · have hadd : wadd u.stake e.stake = u.stake + e.stake :=
        wadd_eq (by omega)
      have hus : (cancelRefund w eid e u).users = updA w.users e.authority
          { stake := wadd u.stake e.stake,
            locked_stake := wsub u.locked_stake e.stake } := rfl
      rw [hus, lookA_updA, if_pos (rfl : e.authority = e.authority), hu,
        hsub, hadd]
      rfl
    · show (if e.authority = e.authority then
          w.user_lamports e.authority + e.stake
        else w.user_lamports e.authority) = _
      rw [if_pos (rfl : e.authority = e.authority)]
    · show findE (cancelRefund w eid e u).events eid = _
      have hev : (cancelRefund w eid e u).events = updE w.events eid
          { e with vault := e.vault - e.stake, canceled := true } := rfl
      rw [hev]
      exact findE_updE _ he hid2

/-- C2 witness: the refund branch at the concrete demo cancel — the
creator's ledger goes from (stake 0, locked 5) to (stake 5, locked 0). -/
theorem C2_cancel_effects_witness :
    lookA demoW2c.users demoEvent.authority
      = some { stake := 5, locked_stake := 0 } :=
  ((@C2_cancel_effects demoW1 demoW2c 1 9 demoEid 5 demoEvent
      { stake := 0, locked_stake := 5 } rfl rfl (by decide) (by decide)
      rfl).2 (by decide)).1

/-- C3: CreateEvent (with resolvable accounts and passing validation)
fails with StakeTooLow exactly when the caller's spendable stake is
below the configured price — equality succeeds — and on success the
spendable stake drops and the locked stake rises by exactly the price,
while the new event's `stake` field equals the price. -/
theorem C3_create_stake {w : World} {c eid : Nat} {args : CreateEventArgs}
    {user : User}
    (hu : lookA w.users c = some user) (hfe : findEvent w eid = none)
    (hfm : lookA w.metas eid = none) (hv : validate eid args = .ok ())
    (hsu : user.stake < U64_MOD)
    (hlk : user.locked_stake + w.state.event_price < U64_MOD) :
    (create_event w c eid args = .error .StakeTooLow
      ↔ user.stake < w.state.event_price) ∧
    (∀ w', create_event w c eid args = .ok w' →
      lookA w'.users c
        = some { stake := user.stake - w.state.event_price,
                 locked_stake := user.locked_stake + w.state.event_price } ∧
      (findEvent w' eid).map Event.stake = some w.state.event_price) := by
  have hred : create_event w c eid args =
      (if user.stake < w.state.event_price then .error .StakeTooLow
       else if w.user_lamports c < w.state.event_price then
         .error .InsufficientFunds
       else .ok (createApply w c eid args user)) := by
    unfold create_event
    rw [hu, hfe, hfm, hv]
    rfl
  refine ⟨⟨?_, ?_⟩, ?_⟩
  · intro herr
    by_contra hge
    rw [hred, if_neg hge] at herr
    by_cases hlam : w.user_lamports c < w.state.event_price
    · rw [if_pos hlam] at herr
      simp at herr
    · rw [if_neg hlam] at herr
      simp at herr
  · intro hlt
    rw [hred, if_pos hlt]
  · intro w' hok
    rw [hred] at hok
    split at hok
    · simp at hok
    split at hok
    · simp at hok
    next hge hlam =>
      injection hok with hw
      subst hw
      constructor
      · have hus : (createApply w c eid args user).users = updA w.users c
            { stake := wsub user.stake w.state.event_price,
              locked_stake := wadd user.locked_stake w.state.event_price } :=
          rfl
        rw [hus, lookA_updA, if_pos (rfl : c = c), hu,
          wsub_eq (Nat.le_of_not_lt hge) hsu, wadd_eq hlk]
        rfl
      · have hev : (createApply w c eid args user).events = w.events ++
            [{ id := eid, authority := c, stake := w.state.event_price,
               start_date := args.start_date, end_date := args.end_date,
               participation_deadline := args.participation_deadline,
               canceled := false, result := none, version := 1,
               vault := w.state.event_price }] := rfl
        show (findE (createApply w c eid args user).events eid).map Event.stake
          = some w.state.event_price
        rw [hev, findE_append _ hfe rfl]
        rfl

/-- C3 witness: at the demo base world (stake exactly equal to the
price) creation succeeds and moves exactly the price into locked
stake; the created event's stake field is the price. -/
theorem C3_create_stake_witness :
    lookA demoW1.users 1 = some { stake := 0, locked_stake := 5 } ∧
    (findEvent demoW1 demoEid).map Event.stake = some demoState.event_price :=
  (@C3_create_stake demoW0 1 demoEid demoArgs
      { stake := 5, locked_stake := 0 } rfl rfl rfl rfl (by decide)
      (by decide)).2 demoW1 rfl

/-- C6: CompleteEvent succeeds exactly when the caller is the event's
authority and `end_date < now` strictly (so it fails with
EventIsNotOver at `now = end_date` and with AuthorityMismatch for any
other caller); on success it stores exactly the supplied result code
and changes no ledger, no configuration and no balances. -/
theorem C6_complete {w : World} {eid : Nat} {e : Event}
    (he : findEvent w eid = some e) :
    ∀ (caller r : Nat) (now : Int),
      ((∃ w', complete_event w caller eid r now = .ok w')
        ↔ (e.authority = caller ∧ e.end_date < now)) ∧
      (e.authority ≠ caller →
        complete_event w caller eid r now = .error .AuthorityMismatch) ∧
      (e.authority = caller → ¬ e.end_date < now →
        complete_event w caller eid r now = .error .EventIsNotOver) ∧
      (∀ w', complete_event w caller eid r now = .ok w' →
        findEvent w' eid = some { e with result := some r } ∧
        w'.users = w.users ∧ w'.state = w.state ∧
        w'.user_lamports = w.user_lamports ∧
        w'.admin_lamports = w.admin_lamports) := by
  intro caller r now
  have hred : complete_event w caller eid r now =
      (if e.authority ≠ caller then .error .AuthorityMismatch
       else if ¬ e.end_date < now then .error .EventIsNotOver
       else .ok (setEvent w eid { e with result := some r })) := by
    unfold complete_event
    rw [he]
  have hid2 : ({ e with result := some r } : Event).id = eid :=
    (findE_mem he).2
  refine ⟨⟨?_, ?_⟩, ?_, ?_, ?_⟩
  · rintro ⟨w', hw⟩
    rw [hred] at hw
    by_cases ha : e.authority = caller
    · by_cases hd : e.end_date < now
      · exact ⟨ha, hd⟩
      · rw [if_neg (not_not_intro ha), if_pos hd] at hw
        simp at hw
    · rw [if_pos ha] at hw
      simp at hw
  · rintro ⟨ha, hd⟩
    rw [hred, if_neg (not_not_intro ha), if_neg (not_not_intro hd)]
    exact ⟨_, rfl⟩
  · intro ha
    rw [hred, if_pos ha]
  · intro ha hd
    rw [hred, if_neg (not_not_intro ha), if_pos hd]
  · intro w' hok
    rw [hred] at hok
    split at hok
    · simp at hok
    split at hok
    · simp at hok
    injection hok with hw
    subst hw
    refine ⟨?_, rfl, rfl, rfl, rfl⟩
    show findE (updE w.events eid { e with result := some r }) eid = _
    exact findE_updE _ he hid2

/-- C6 witness: at the demo event (end 20) completion fails at now =
20 with EventIsNotOver, fails for a non-authority caller with
AuthorityMismatch, and succeeds at now = 21. -/
theorem C6_complete_witness :
    (∃ w', complete_event demoW1 1 demoEid 7 21 = .ok w') ∧
    complete_event demoW1 2 demoEid 7 21 = .error .AuthorityMismatch ∧
    complete_event demoW1 1 demoEid 7 20 = .error .EventIsNotOver := by
  have h := @C6_complete demoW1 demoEid demoEvent rfl
  exact ⟨(h 1 7 21).1.mpr ⟨rfl, by decide⟩,
    (h 2 7 21).2.1 (by decide),
    (h 1 7 20).2.2.1 rfl (by decide)⟩

/-- C7: the four UpdateEvent sub-operations share one entry gate — the
event account constraints — so each fails with exactly the gate's
error: AuthorityMismatch when the caller is not the event authority,
EventAlreadyStarted once `now >= start_date` (for the authority), and
the gate admits at `now = start_date - 1`, where the name and
description updates then succeed outright. -/
theorem update_gate_red {w : World} {eid : Nat} {e : Event}
    (he : findEvent w eid = some e) (caller : Nat) (now : Int) :
    update_gate w caller eid now =
      (if e.authority ≠ caller then .error .AuthorityMismatch
       else if ¬ e.start_date > now then .error .EventAlreadyStarted
       else .ok e) := by
  unfold update_gate
  rw [he]

theorem C7_update_gating {w : World} {eid : Nat} {e : Event} {m : EventMeta}
    (he : findEvent w eid = some e) (hm : lookA w.metas eid = some m) :
    (∀ (caller : Nat) (now : Int) (err : PErr),
      update_gate w caller eid now = .error err →
      ∀ (n d : List Nat) (nd : Int) (dl : Option Int),
        update_event_name w caller eid n now = .error err ∧
        update_event_description w caller eid d now = .error err ∧
        update_event_end_date w caller eid nd now = .error err ∧
        update_event_participation_deadline w caller eid dl now
          = .error err) ∧
    (∀ (caller : Nat) (now : Int), e.authority ≠ caller →
      update_gate w caller eid now = .error .AuthorityMismatch) ∧
    (∀ now : Int, e.start_date ≤ now →
      update_gate w e.authority eid now = .error .EventAlreadyStarted) ∧
    (update_gate w e.authority eid (e.start_date - 1) = .ok e) ∧
    (∀ n : List Nat, ∃ w',
      update_event_name w e.authority eid n (e.start_date - 1) = .ok w') ∧
    (∀ d : List Nat, ∃ w',
      update_event_description w e.authority eid d (e.start_date - 1)
        = .ok w') := by
  have hgok : ∀ now : Int, now < e.start_date →
      update_gate w e.authority eid now = .ok e := by
    intro now hlt
    rw [update_gate_red he, if_neg (not_not_intro rfl),
      if_neg (not_not_intro hlt)]
  refine ⟨?_, ?_, ?_, ?_, ?_, ?_⟩
  · intro caller now err hgerr n d nd dl
    refine ⟨?_, ?_, ?_, ?_⟩
    · unfold update_event_name
      rw [hgerr]
    · unfold update_event_description
      rw [hgerr]
    · unfold update_event_end_date
      rw [hgerr]
    · unfold update_event_participation_deadline
      rw [hgerr]
  · intro caller now hne
    rw [update_gate_red he, if_pos hne]
  · intro now hle
    rw [update_gate_red he, if_neg (not_not_intro rfl),
      if_pos (not_lt.mpr hle)]
  · exact hgok _ (by omega)
  · intro n
    refine ⟨{ w with metas := updA w.metas eid { m with name := n } }, ?_⟩
    unfold update_event_name
    rw [hgok _ (by omega), hm]
  · intro d
    refine ⟨{ w with metas := updA w.metas eid { m with description := d } }, ?_⟩
    unfold update_event_description
    rw [hgok _ (by omega), hm]

/-- C7 witness: concrete gate outcomes at the demo event (start 10):
non-authority update fails, an update at now = 10 fails as already
started, and a name update at now = 9 succeeds. -/
theorem C7_update_gating_witness :
    update_event_name demoW1 2 demoEid [7] 5 = .error .AuthorityMismatch ∧
    update_event_end_date demoW1 1 demoEid 30 10
      = .error .EventAlreadyStarted ∧
    (∃ w', update_event_name demoW1 1 demoEid [7] 9 = .ok w') := by
  have h := @C7_update_gating demoW1 demoEid demoEvent demoMeta rfl rfl
  exact ⟨(h.1 2 5 _ (h.2.1 2 5 (by decide)) [7] [] 0 none).1,
    (h.1 1 10 _ (h.2.2.1 10 (by decide)) [] [] 30 none).2.2.1,
    h.2.2.2.2.1 [7]⟩

theorem validate_red (eid : Nat) (args : CreateEventArgs)
    (hv : get_version_num eid = UUID_VERSION)
    (h1 : args.start_date < args.end_date) (d : Int)
    (hdl : args.participation_deadline = some d) :
    validate eid args = (if args.start_date ≤ d ∧ d ≤ args.end_date
      then .ok () else .error .InvalidEndDate) := by
  unfold validate
  rw [if_neg (not_not_intro hv), if_neg (not_not_intro h1), hdl]

theorem updEnd_red {w : World} {eid : Nat} {e : Event} {m : EventMeta}
    (he : findEvent w eid = some e) (hm : lookA w.metas eid = some m)
    (now : Int) (hlt : now < e.start_date) (nd : Int) :
    update_event_end_date w e.authority eid nd now =
      (if ¬ e.start_date < nd then .error .InvalidEndDate
       else match e.participation_deadline with
         | some d =>
             if ¬ d ≤ nd then .error .InvalidEndDate
             else .ok (setEvent w eid { e with end_date := nd })
         | none => .ok (setEvent w eid { e with end_date := nd })) := by
  unfold update_event_end_date
  rw [update_gate_red he, if_neg (not_not_intro rfl),
    if_neg (not_not_intro hlt), hm]

theorem updDl_red {w : World} {eid : Nat} {e : Event} {m : EventMeta}
    (he : findEvent w eid = some e) (hm : lookA w.metas eid = some m)
    (now : Int) (hlt : now < e.start_date) (d : Int) :
    update_event_participation_deadline w e.authority eid (some d) now =
      (if e.start_date ≤ d ∧ d ≤ e.end_date
       then .ok (setEvent w eid { e with participation_deadline := some d })
       else .error .InvalidEndDate) := by
  unfold update_event_participation_deadline
  rw [update_gate_red he, if_neg (not_not_intro rfl),
    if_neg (not_not_intro hlt), hm]

/-- C8: CreateEvent's validation and UpdateEventEndDate reject a
non-increasing date pair with InvalidEndDate; a participation deadline
equal to either end of `[startDate, endDate]` is accepted (inclusive)
while one unit outside is rejected, both at creation and via
UpdateEventParticipationDeadline; UpdateEventEndDate accepts a new end
date iff it exceeds startDate and is at least any existing deadline;
and a validation failure surfaces from CreateEvent verbatim. -/
theorem C8_date_validation {w : World} {eid : Nat} {e : Event}
    {m : EventMeta}
    (he : findEvent w eid = some e) (hm : lookA w.metas eid = some m) :
    (∀ args : CreateEventArgs, get_version_num eid = UUID_VERSION →
      args.end_date ≤ args.start_date →
      validate eid args = .error .InvalidEndDate) ∧
    (∀ args : CreateEventArgs, get_version_num eid = UUID_VERSION →
      args.start_date < args.end_date →
      ((args.participation_deadline = some args.start_date →
        validate eid args = .ok ()) ∧
       (args.participation_deadline = some args.end_date →
        validate eid args = .ok ()) ∧
       (args.participation_deadline = some (args.start_date - 1) →
        validate eid args = .error .InvalidEndDate) ∧
       (args.participation_deadline = some (args.end_date + 1) →
        validate eid args = .error .InvalidEndDate))) ∧
    (∀ (eid2 c : Nat) (args : CreateEventArgs) (u : User),
      lookA w.users c = some u → findEvent w eid2 = none →
      lookA w.metas eid2 = none →
      validate eid2 args = .error .InvalidEndDate →
      create_event w c eid2 args = .error .InvalidEndDate) ∧
    (∀ now : Int, now < e.start_date →
      ((∀ nd : Int, nd ≤ e.start_date →
        update_event_end_date w e.authority eid nd now
          = .error .InvalidEndDate) ∧
       (∀ nd : Int, e.start_date < nd →
        (∀ dd, e.participation_deadline = some dd → dd ≤ nd) →
        ∃ w', update_event_end_date w e.authority eid nd now = .ok w') ∧
       (∀ nd dd : Int, e.participation_deadline = some dd →
        e.start_date < nd → nd < dd →
        update_event_end_date w e.authority eid nd now
          = .error .InvalidEndDate) ∧
       (e.start_date ≤ e.end_date →
        (∃ w', update_event_participation_deadline w e.authority eid
          (some e.start_date) now = .ok w') ∧
        (∃ w', update_event_participation_deadline w e.authority eid
          (some e.end_date) now = .ok w')) ∧
       (update_event_participation_deadline w e.authority eid
          (some (e.start_date - 1)) now = .error .InvalidEndDate) ∧
       (update_event_participation_deadline w e.authority eid
          (some (e.end_date + 1)) now = .error .InvalidEndDate))) := by
  refine ⟨?_, ?_, ?_, ?_⟩
  · intro args hv hse
    unfold validate
    rw [if_neg (not_not_intro hv), if_pos (not_lt.mpr hse)]
  · intro args hv h1
    refine ⟨?_, ?_, ?_, ?_⟩
    · intro hdl
      rw [validate_red eid args hv h1 _ hdl,
        if_pos ⟨le_refl _, le_of_lt h1⟩]
    · intro hdl
      rw [validate_red eid args hv h1 _ hdl,
        if_pos ⟨le_of_lt h1, le_refl _⟩]
    · intro hdl
      rw [validate_red eid args hv h1 _ hdl,
        if_neg (fun hcon => absurd hcon.1 (by omega))]
    · intro hdl
      rw [validate_red eid args hv h1 _ hdl,
        if_neg (fun hcon => absurd hcon.2 (by omega))]
  · intro eid2 c args u hu hfe hfm hverr
    unfold create_event
    rw [hu, hfe, hfm, hverr]
    rfl
  · intro now hlt
    refine ⟨?_, ?_, ?_, ?_, ?_, ?_⟩
    · intro nd hle
      rw [updEnd_red he hm now hlt nd, if_pos (not_lt.mpr hle)]
    · intro nd hgt hdd
      rw [updEnd_red he hm now hlt nd, if_neg (not_not_intro hgt)]
      cases hpd : e.participation_deadline with
      | none =>
        exact ⟨setEvent w eid
          { e with end_date := nd, participation_deadline := none }, rfl⟩
      | some dd =>
        refine ⟨setEvent w eid
          { e with end_date := nd, participation_deadline := some dd }, ?_⟩
        show (if ¬ dd ≤ nd then (Except.error PErr.InvalidEndDate : Except PErr World)
          else Except.ok (setEvent w eid
            { e with end_date := nd, participation_deadline := some dd }))
          = Except.ok (setEvent w eid
            { e with end_date := nd, participation_deadline := some dd })
        rw [if_neg (not_not_intro (hdd dd hpd))]
    · intro nd dd hpd hgt hlt2
      rw [updEnd_red he hm now hlt nd, if_neg (not_not_intro hgt), hpd]
      show (if ¬ dd ≤ nd then (Except.error PErr.InvalidEndDate : Except PErr World)
        else Except.ok (setEvent w eid
          { e with end_date := nd, participation_deadline := some dd }))
        = Except.error PErr.InvalidEndDate
      rw [if_pos (not_le.mpr hlt2)]
    · intro hse
      constructor
      · refine ⟨setEvent w eid
          { e with participation_deadline := some e.start_date }, ?_⟩
        rw [updDl_red he hm now hlt, if_pos ⟨le_refl _, hse⟩]
      · refine ⟨setEvent w eid
          { e with participation_deadline := some e.end_date }, ?_⟩
        rw [updDl_red he hm now hlt, if_pos ⟨hse, le_refl _⟩]
    · rw [updDl_red he hm now hlt,
        if_neg (fun hcon => absurd hcon.1 (by omega))]
    · rw [updDl_red he hm now hlt,
        if_neg (fun hcon => absurd hcon.2 (by omega))]

/-- C8 witness: the boundary checks at the concrete demo event (start
10, end 20): a deadline of 10 is accepted, 21 rejected; an update of
the end date to 10 is rejected; setting the deadline to 20 succeeds. -/
theorem C8_date_validation_witness :
    validate demoEid { demoArgs with participation_deadline := some 10 }
      = .ok () ∧
    validate demoEid { demoArgs with participation_deadline := some 21 }
      = .error .InvalidEndDate ∧
    update_event_end_date demoW1 1 demoEid 10 5 = .error .InvalidEndDate ∧
    (∃ w', update_event_participation_deadline demoW1 1 demoEid (some 20) 5
      = .ok w') := by
  have h := @C8_date_validation demoW1 demoEid demoEvent demoMeta rfl rfl
  refine ⟨?_, ?_, ?_, ?_⟩
  · exact (h.2.1 _ (by decide) (by decide)).1 rfl
  · exact (h.2.1 _ (by decide) (by decide)).2.2.2 rfl
  · exact (h.2.2.2 5 (by decide)).1 10 (by decide)
  · exact ((h.2.2.2 5 (by decide)).2.2.2.1 (by decide)).2

/-- C9: with the admin account correctly supplied, CancelEvent's
authority require passes exactly when the sender is the event's
authority or `now` strictly exceeds `end_date + COMPLETION_DEADLINE`:
a non-creator cancel fails with AuthorityMismatch at or before the
grace boundary and succeeds one unit after it (vault permitting); and
on every path the supplied admin account must equal the configured
admin. -/
theorem C9_cancel_authority {w : World} {eid sender ca : Nat} {e : Event}
    {u : User}
    (hca : w.state.authority = ca) (he : findEvent w eid = some e)
    (hu : lookA w.users e.authority = some u) :
    (∀ now : Int, sender ≠ e.authority →
      now ≤ e.end_date + COMPLETION_DEADLINE →
      cancel_event w sender ca eid now = .error .AuthorityMismatch) ∧
    (∀ now : Int, e.stake ≤ e.vault →
      now = e.end_date + COMPLETION_DEADLINE + 1 →
      ∃ w', cancel_event w sender ca eid now = .ok w') ∧
    (∀ now : Int, cancel_event w sender ca eid now
        = .error .AuthorityMismatch
      ↔ ¬ (e.authority = sender ∨ now > e.end_date + COMPLETION_DEADLINE)) ∧
    (∀ (ca' : Nat) (now : Int), w.state.authority ≠ ca' →
      cancel_event w sender ca' eid now = .error .AuthorityMismatch) := by
  have hred : ∀ now : Int, cancel_event w sender ca eid now =
      (if ¬ (e.authority = sender ∨ now > e.end_date + COMPLETION_DEADLINE)
       then .error .AuthorityMismatch
       else if e.start_date ≤ now then
         (if e.vault < e.stake then .error .InsufficientFunds
          else .ok (cancelForfeit w eid e u))
       else
         (if e.vault < e.stake then .error .InsufficientFunds
          else .ok (cancelRefund w eid e u))) := by
    intro now
    unfold cancel_event
    simp only [if_neg (not_not_intro hca), he, hu]
  refine ⟨?_, ?_, ?_, ?_⟩
  · intro now hns hle
    have hnor : ¬ (e.authority = sender
        ∨ now > e.end_date + COMPLETION_DEADLINE) := by
      rintro (h1 | h2)
      · exact hns h1.symm
      · omega
    rw [hred now, if_pos hnor]
  · intro now hsv hn
    have hor : e.authority = sender
        ∨ now > e.end_date + COMPLETION_DEADLINE := Or.inr (by omega)
    by_cases hstart : e.start_date ≤ now
    · refine ⟨cancelForfeit w eid e u, ?_⟩
      rw [hred now, if_neg (not_not_intro hor), if_pos hstart,
        if_neg (not_lt.mpr hsv)]
    · refine ⟨cancelRefund w eid e u, ?_⟩
      rw [hred now, if_neg (not_not_intro hor), if_neg hstart,
        if_neg (not_lt.mpr hsv)]
  · intro now
    constructor
    · intro herr hor'
      rw [hred now, if_neg (not_not_intro hor')] at herr
      split at herr <;> split at herr <;> simp at herr
    · intro hnor
      rw [hred now, if_pos hnor]
  · intro ca' now h'
    unfold cancel_event
    rw [if_pos h']

/-- C9 witness: at the demo event (end 20), a non-creator cancel with
the right admin account fails exactly at the grace boundary and
succeeds one unit after it. -/
theorem C9_cancel_authority_witness :
    cancel_event demoW1 2 9 demoEid (20 + COMPLETION_DEADLINE)
      = .error .AuthorityMismatch ∧
    (∃ w', cancel_event demoW1 2 9 demoEid (20 + COMPLETION_DEADLINE + 1)
      = .ok w') := by
  have h := @C9_cancel_authority demoW1 demoEid 2 9 demoEvent
    { stake := 0, locked_stake := 5 } rfl rfl rfl
  exact ⟨h.1 _ (by decide) (by decide), h.2.1 _ (by decide) rfl⟩

end Predictory
